import Mathlib

/-!
Verification of the BNM exchange-rate dashboard core (`src/app.py`).

Shallow-embedding conventions:

* A raw HTTP response body is abstracted as `Doc := Option (List RawValute)`:
  `none` models a byte string on which `ET.fromstring` raises, and `some vs`
  models a well-formed XML document whose `root.findall('Valute')` returns
  the element list `vs`.
* Each `<Valute>` element is a `RawValute`.  A field holds `none` when the
  corresponding child element is missing, or (for `Value` / `Nominal`) when
  its text does not parse as a number: in Python each of these situations
  raises (AttributeError on `.text` of `None`, or ValueError in
  `float(...)` / `int(...)`) inside the `for` loop of `parse_xml`.
* Python floats are modelled as exact rationals `ℚ`, Python ints as `ℤ`.
* A `datetime` value is modelled as `Nat` seconds since the epoch;
  `datetime.now()` becomes the explicit parameter `now`, and
  `timedelta(days=i)` becomes `i * oneDay` with `oneDay = 86400` seconds.
  The `strftime("%d.%m.%Y")` key used for the HTTP request identifies the
  calendar day, so the fetcher is keyed by the day number `t / oneDay`.
* `get_exchange_rate` performs the network call; it is modelled as an
  uninterpreted function `fetch : Nat → Option Doc` (day number to optional
  response): `none` models any transport failure or non-200 status, which
  the Python code converts to `None`.
* `pandas.DataFrame.sort_values` is modelled by an insertion sort; the
  claims proved below depend only on sortedness and on the multiset of
  rows, never on the relative order of ties.
-/

namespace ExcelApp

/-- One `<Valute>` element of the BNM XML document, as seen by `parse_xml`.
`charCode`/`name` model `valute.find('CharCode').text` / `find('Name').text`;
`value`/`nominal` model `float(find('Value').text)` / `int(find('Nominal').text)`,
with `none` for a missing child or unparseable number. -/
structure RawValute where
  charCode : Option String
  name : Option String
  value : Option ℚ
  nominal : Option Int
deriving DecidableEq, Repr

/-- The value stored in the `rates` dict of `parse_xml`:
`{'name': name, 'value': value / nominal, 'nominal': nominal}`. -/
structure RateInfo where
  name : String
  value : ℚ
  nominal : Int
deriving DecidableEq, Repr

/-- An XML response body: `none` when `ET.fromstring` raises, otherwise the
list of `<Valute>` elements. -/
abbrev Doc := Option (List RawValute)

/-- One iteration of the `for valute in root.findall('Valute')` loop body in
`parse_xml` (src/app.py lines 38-47): extract the four children, failing
(`none`, i.e. the Python iteration raising an exception) when any child is
missing, a number is unparseable, or `Nominal` is `0` (ZeroDivisionError in
`value / nominal`); otherwise produce the dict entry. -/
def parseEntry (v : RawValute) : Option (String × RateInfo) :=
  match v.charCode, v.name, v.value, v.nominal with
  | some c, some n, some val, some nom =>
      if nom = 0 then none
      else some (c, { name := n, value := val / (nom : ℚ), nominal := nom })
  | _, _, _, _ => none

/-- Python dict assignment `rates[code] = info`: replace the entry for an
existing key in place, otherwise append the new key at the end (Python dicts
preserve first-insertion order and overwrite values). -/
def insertRate : List (String × RateInfo) → String → RateInfo → List (String × RateInfo)
  | [], c, i => [(c, i)]
  | p :: ps, c, i => if p.1 = c then (c, i) :: ps else p :: insertRate ps c i

/-- The `for` loop of `parse_xml` under its enclosing `try`: process the
elements in document order, accumulating dict entries; the first failing
element aborts the loop (the `except: pass`) and the accumulated `rates`
dict is returned as is. -/
def parseLoop : List (String × RateInfo) → List RawValute → List (String × RateInfo)
  | acc, [] => acc
  | acc, v :: vs =>
      match parseEntry v with
      | none => acc
      | some (c, i) => parseLoop (insertRate acc c i) vs

/-- `parse_xml` (src/app.py lines 32-50): `rates = {}`; on an unparseable
document (`ET.fromstring` raises) the `except` returns the still-empty dict;
otherwise run the loop over the `Valute` elements. -/
def parse_xml : Doc → List (String × RateInfo)
  | none => []
  | some vs => parseLoop [] vs

/-- Python dict read `rates[c]` / `rates.get(c)` on the association list. -/
def lookupRate (rates : List (String × RateInfo)) (c : String) : Option RateInfo :=
  (rates.find? (fun p => p.1 == c)).map Prod.snd

/-- One row appended to `data` in `get_historical_data`:
`{'Data': date, 'Cod': code, 'Moneda': info['name'], 'Curs': info['value']}`. -/
structure Row where
  data : Nat
  cod : String
  moneda : String
  curs : ℚ
deriving DecidableEq, Repr

/-- Seconds in one calendar day (`timedelta(days=1)`). -/
def oneDay : Nat := 86400

/-- One iteration of the `for i in range(days)` loop in `get_historical_data`
(src/app.py lines 62-76): `date = end_date - timedelta(days=i)`, fetch the
document for that date's `"%d.%m.%Y"` key, parse it, and when the parse
result is non-empty turn each dict entry into a row carrying the full
`datetime` value `date`. -/
def rowsForDay (fetch : Nat → Option Doc) (now : Nat) (i : Nat) : List Row :=
  let date := now - i * oneDay
  match fetch (date / oneDay) with
  | none => []
  | some doc =>
      let rates := parse_xml doc
      if rates.isEmpty then []
      else rates.map (fun p =>
        { data := date, cod := p.1, moneda := p.2.name, curs := p.2.value })

/-- Insert into a list sorted by the Boolean relation `le`. -/
def insBy (le : α → α → Bool) (a : α) : List α → List α
  | [] => [a]
  | b :: l => if le a b then a :: b :: l else b :: insBy le a l

/-- Insertion sort by the Boolean relation `le`, modelling
`DataFrame.sort_values` (the claims below never depend on tie order). -/
def sortBy (le : α → α → Bool) : List α → List α
  | [] => []
  | a :: l => insBy le a (sortBy le l)

/-- Ascending comparison on the `Data` column. -/
def rowLe (a b : Row) : Bool := a.data ≤ b.data

/-- `get_historical_data(days)` (src/app.py lines 53-87): loop `i` over
`range(days)` (empty for `days ≤ 0`, exactly as Python's `range`), collect
the rows of every day, and return them sorted ascending by the `Data`
column (`df.sort_values('Data')`); with no data the result is the empty
table.  `end_date = datetime.now()` is the explicit parameter `now`. -/
def get_historical_data (days : Int) (fetch : Nat → Option Doc) (now : Nat) : List Row :=
  sortBy rowLe ((List.range days.toNat).flatMap (rowsForDay fetch now))

/-- The EUR entry of the C1 scenario: value 19.50, nominal 1. -/
def euroValute : RawValute :=
  { charCode := some "EUR", name := some "Euro", value := some (39/2 : ℚ), nominal := some 1 }

/-- The USD entry of the C1 scenario: value 1950.0, nominal 100. -/
def usdValute : RawValute :=
  { charCode := some "USD", name := some "US Dollar", value := some (1950 : ℚ), nominal := some 100 }

/-- A malformed entry: the `<Value>` child is missing, so the loop iteration
raises in Python. -/
def badValute : RawValute :=
  { charCode := some "XXX", name := some "Bad", value := none, nominal := some 1 }

/-- An entry quoting a zero value (well-formed for the parser). -/
def zeroValute : RawValute :=
  { charCode := some "ZRO", name := some "Zero", value := some 0, nominal := some 1 }

/-- A data source that answers every day with a one-entry EUR document. -/
def constFetch : Nat → Option Doc := fun _ => some (some [euroValute])

/-- A second EUR entry with a different quoted value (for duplicate-code
documents). -/
def eurAltValute : RawValute :=
  { charCode := some "EUR", name := some "Euro", value := some (20 : ℚ), nominal := some 1 }

/-- Every numeric field present in the document is strictly positive. -/
def EntriesPos (vs : List RawValute) : Prop :=
  ∀ v ∈ vs, (∀ q, v.value = some q → 0 < q) ∧ (∀ n, v.nominal = some n → 0 < n)

/-- Gregorian calendar date (year, month, day) of a day number counted from
1970-01-01, the standard civil-from-days conversion used to model
`date.strftime("%d.%m.%Y")`. -/
def civilFromDays (z0 : Nat) : Nat × Nat × Nat :=
  let z := z0 + 719468
  let era := z / 146097
  let doe := z % 146097
  let yoe := (doe - doe / 1460 + doe / 36524 - doe / 146096) / 365
  let y := yoe + era * 400
  let doy := doe - (365 * yoe + yoe / 4 - yoe / 100)
  let mp := (5 * doy + 2) / 153
  let d := doy - (153 * mp + 2) / 5 + 1
  let m := if mp < 10 then mp + 3 else mp - 9
  (if m ≤ 2 then y + 1 else y, m, d)

/-- Zero-padded two-digit rendering of day and month numbers. -/
def pad2 (n : Nat) : String :=
  if n < 10 then "0" ++ toString n else toString n

/-- `t.strftime("%d.%m.%Y")` for a datetime `t` in seconds since the epoch. -/
def fmtDate (t : Nat) : String :=
  let c := civilFromDays (t / oneDay)
  pad2 c.2.2 ++ "." ++ pad2 c.2.1 ++ "." ++ toString c.1

/-- Lexicographic comparison of character lists by code point, the
comparison Python (and pandas) uses on `str` values. -/
def charsLe : List Char → List Char → Bool
  | [], _ => true
  | _ :: _, [] => false
  | a :: as, b :: bs => if a = b then charsLe as bs else decide (a < b)

/-- Lexicographic `≤` on strings (Python `str` ordering). -/
def strLe (a b : String) : Bool := charsLe a.data b.data

/-- The pivoted table of src/app.py lines 208-214: `header` is the `Data`
column followed by one column per currency code, `prows` pairs each
formatted date with its row of cells. -/
structure PivotTable where
  header : List String
  prows : List (String × List (Option ℚ))
deriving Repr

/-- One cell of `pivot_table(index='Data', columns='Cod', values='Curs')`:
the mean (pandas' default `aggfunc`) of the `Curs` values at this
(`Data`, `Cod`) pair, or missing when there is none. -/
def cellMean (rows : List Row) (d : Nat) (c : String) : Option ℚ :=
  let vs := (rows.filter (fun r => r.data == d && r.cod == c)).map (fun r => r.curs)
  if vs.isEmpty then none else some (vs.sum / (vs.length : ℚ))

/-- `pivot_df` (src/app.py lines 208-214): pivot the long table (distinct
dates as the index, sorted ascending by pandas; distinct codes as columns,
sorted ascending), `reset_index`, format the `Data` column with
`strftime('%d.%m.%Y')`, then `sort_values('Data', ascending=False)` — a sort
on the already-formatted date STRINGS, descending. -/
def pivot_df (rows : List Row) : PivotTable :=
  let dates := sortBy Nat.ble ((rows.map (fun r => r.data)).dedup)
  let codes := sortBy strLe ((rows.map (fun r => r.cod)).dedup)
  let body := dates.map (fun d => (fmtDate d, codes.map (fun c => cellMean rows d c)))
  { header := "Data" :: codes
    prows := sortBy (fun a b => strLe b.1 a.1) body }

/-- Re-timestamp a row from a call made at second-of-day `r1` to one made at
second-of-day `r2` of the same calendar day. -/
def shiftRow (r1 r2 : Nat) (r : Row) : Row :=
  { r with data := r.data - r1 + r2 }

/-- Forget the time-of-day of each row's date, keeping the calendar-day
number together with the other three columns. -/
def dayView (l : List Row) : List (Nat × String × String × ℚ) :=
  l.map (fun r => (r.data / oneDay, r.cod, r.moneda, r.curs))

/-! ### Generic facts about the Boolean insertion sort -/

theorem insBy_perm (le : α → α → Bool) (a : α) (l : List α) :
    (insBy le a l).Perm (a :: l) := by
  induction l with
  | nil => simp [insBy]
  | cons b l ih =>
      by_cases h : le a b = true
      · simp [insBy, h]
      · simp only [insBy, h]
        rw [if_neg (by simp [h])]
        exact ((ih.cons b).trans (List.Perm.swap a b l))

theorem sortBy_perm (le : α → α → Bool) (l : List α) :
    (sortBy le l).Perm l := by
  induction l with
  | nil => simp [sortBy]
  | cons a l ih => exact (insBy_perm le a (sortBy le l)).trans (ih.cons a)

theorem mem_sortBy (le : α → α → Bool) (l : List α) (x : α) :
    x ∈ sortBy le l ↔ x ∈ l :=
  (sortBy_perm le l).mem_iff

theorem pairwise_insBy (le : α → α → Bool)
    (htot : ∀ a b, le a b = false → le b a = true)
    (htrans : ∀ a b c, le a b = true → le b c = true → le a c = true)
    (a : α) (l : List α)
    (hl : l.Pairwise (fun x y => le x y = true)) :
    (insBy le a l).Pairwise (fun x y => le x y = true) := by
  induction l with
  | nil => simp [insBy]
  | cons b l ih =>
      rcases List.pairwise_cons.1 hl with ⟨hb, hl'⟩
      by_cases h : le a b = true
      · simp only [insBy, h, if_true]
        refine List.pairwise_cons.2 ⟨?_, hl⟩
        intro y hy
        rcases hy with _ | hy
        · exact h
        · exact htrans a b y h (hb y (by assumption))
      · simp only [insBy, h]
        rw [if_neg (by simp [h])]
        refine List.pairwise_cons.2 ⟨?_, ih hl'⟩
        intro y hy
        rcases List.mem_cons.1 ((insBy_perm le a l).mem_iff.1 hy) with hy' | hy'
        · rw [hy']
          exact htot a b (by simpa using h)
        · exact hb y hy'

theorem sortBy_pairwise (le : α → α → Bool)
    (htot : ∀ a b, le a b = false → le b a = true)
    (htrans : ∀ a b c, le a b = true → le b c = true → le a c = true)
    (l : List α) :
    (sortBy le l).Pairwise (fun x y => le x y = true) := by
  induction l with
  | nil => simp [sortBy]
  | cons a l ih => exact pairwise_insBy le htot htrans a (sortBy le l) ih

theorem insBy_map (le : α → α → Bool) (f : α → α) (a : α) (l : List α)
    (h : ∀ b ∈ l, le (f a) (f b) = le a b) :
    insBy le (f a) (l.map f) = (insBy le a l).map f := by
  induction l with
  | nil => simp [insBy]
  | cons b l ih =>
      simp only [List.map_cons, insBy]
      rw [h b (List.mem_cons_self b l)]
      by_cases hb : le a b = true
      · simp [hb]
      · simp [hb, ih (fun c hc => h c (List.mem_cons_of_mem b hc))]

theorem sortBy_map (le : α → α → Bool) (f : α → α) (l : List α)
    (h : ∀ x ∈ l, ∀ y ∈ l, le (f x) (f y) = le x y) :
    sortBy le (l.map f) = (sortBy le l).map f := by
  induction l with
  | nil => simp [sortBy]
  | cons a l ih =>
      simp only [List.map_cons, sortBy]
      rw [ih (fun x hx y hy =>
        h x (List.mem_cons_of_mem a hx) y (List.mem_cons_of_mem a hy))]
      exact insBy_map le f a (sortBy le l) (fun b hb =>
        h a (List.mem_cons_self a l) b
          (List.mem_cons_of_mem a ((mem_sortBy le l b).1 hb)))

/-! ### Facts about the parsing loop and the dict operations -/

theorem mem_insertRate (ps : List (String × RateInfo)) (c : String) (i : RateInfo)
    (p : String × RateInfo) (hp : p ∈ insertRate ps c i) :
    p ∈ ps ∨ p = (c, i) := by
  induction ps with
  | nil => simpa [insertRate] using hp
  | cons q ps ih =>
      by_cases hq : q.1 = c
      · simp only [insertRate, hq, if_true] at hp
        rcases List.mem_cons.1 hp with h | h
        · exact Or.inr h
        · exact Or.inl (List.mem_cons_of_mem q h)
      · simp only [insertRate, hq, if_false] at hp
        rcases List.mem_cons.1 hp with h | h
        · exact Or.inl (h ▸ List.mem_cons_self q ps)
        · rcases ih h with h' | h'
          · exact Or.inl (List.mem_cons_of_mem q h')
          · exact Or.inr h'

theorem mem_parseLoop (vs : List RawValute) (acc : List (String × RateInfo))
    (p : String × RateInfo) (hp : p ∈ parseLoop acc vs) :
    p ∈ acc ∨ ∃ v ∈ vs, parseEntry v = some p := by
  induction vs generalizing acc with
  | nil => exact Or.inl (by simpa [parseLoop] using hp)
  | cons v vs ih =>
      simp only [parseLoop] at hp
      rcases hpe : parseEntry v with _ | ci
      · rw [hpe] at hp
        exact Or.inl hp
      · rw [hpe] at hp
        rcases ih (insertRate acc ci.1 ci.2) hp with h | h
        · rcases mem_insertRate acc ci.1 ci.2 p h with h' | h'
          · exact Or.inl h'
          · exact Or.inr ⟨v, List.mem_cons_self v vs, by rw [hpe, h']⟩
        · rcases h with ⟨u, hu, hu'⟩
          exact Or.inr ⟨u, List.mem_cons_of_mem v hu, hu'⟩

theorem find?_insertRate_self (ps : List (String × RateInfo)) (c : String) (i : RateInfo) :
    (insertRate ps c i).find? (fun p => p.1 == c) = some (c, i) := by
  induction ps with
  | nil => simp [insertRate, List.find?]
  | cons q ps ih =>
      by_cases hq : q.1 = c
      · simp [insertRate, hq, List.find?]
      · simp only [insertRate, hq, if_false]
        rw [List.find?_cons_of_neg _ (by simpa using hq)]
        exact ih

theorem find?_insertRate_other (ps : List (String × RateInfo)) (c : String) (i : RateInfo)
    (c' : String) (hne : c' ≠ c) :
    (insertRate ps c i).find? (fun p => p.1 == c') = ps.find? (fun p => p.1 == c') := by
  have hcc : ∀ i' : RateInfo, ¬((c, i').1 == c') = true := by
    intro i' h
    exact hne ((by simpa using h : c = c')).symm
  induction ps with
  | nil =>
      have h1 : List.find? (fun p => p.1 == c') [(c, i)] =
          List.find? (fun p => p.1 == c') ([] : List (String × RateInfo)) :=
        List.find?_cons_of_neg _ (hcc i)
      simpa [insertRate] using h1
  | cons q ps ih =>
      by_cases hq : q.1 = c
      · have hq' : ¬(q.1 == c') = true := by
          intro h
          rw [hq] at h
          exact hne ((by simpa using h : c = c')).symm
        have h1 : List.find? (fun p => p.1 == c') ((c, i) :: ps) =
            List.find? (fun p => p.1 == c') ps :=
          List.find?_cons_of_neg _ (hcc i)
        have h2 : List.find? (fun p => p.1 == c') (q :: ps) =
            List.find? (fun p => p.1 == c') ps :=
          List.find?_cons_of_neg _ hq'
        simp only [insertRate, hq, if_true]
        rw [h1, h2]
      · by_cases hq' : q.1 = c'
        · have h1 : List.find? (fun p => p.1 == c') (q :: insertRate ps c i) = some q :=
            List.find?_cons_of_pos _ (by simpa using hq')
          have h2 : List.find? (fun p => p.1 == c') (q :: ps) = some q :=
            List.find?_cons_of_pos _ (by simpa using hq')
          simp only [insertRate, hq, if_false]
          rw [h1, h2]
        · have h1 : List.find? (fun p => p.1 == c') (q :: insertRate ps c i) =
              List.find? (fun p => p.1 == c') (insertRate ps c i) :=
            List.find?_cons_of_neg _ (by simpa using hq')
          have h2 : List.find? (fun p => p.1 == c') (q :: ps) =
              List.find? (fun p => p.1 == c') ps :=
            List.find?_cons_of_neg _ (by simpa using hq')
          simp only [insertRate, hq, if_false]
          rw [h1, h2, ih]

theorem keys_insertRate (ps : List (String × RateInfo)) (c : String) (i : RateInfo) :
    (insertRate ps c i).map Prod.fst =
      if c ∈ ps.map Prod.fst then ps.map Prod.fst else ps.map Prod.fst ++ [c] := by
  induction ps with
  | nil => simp [insertRate]
  | cons q ps ih =>
      by_cases hq : q.1 = c
      · simp [insertRate, hq]
      · simp only [insertRate, hq, if_false, List.map_cons, ih]
        have hqc : (c ∈ q.1 :: ps.map Prod.fst) ↔ c ∈ ps.map Prod.fst := by
          constructor
          · intro hmem
            rcases List.mem_cons.1 hmem with h' | h'
            · exact absurd h'.symm hq
            · exact h'
          · exact List.mem_cons_of_mem q.1
        by_cases hc : c ∈ ps.map Prod.fst
        · rw [if_pos hc, if_pos (hqc.2 hc)]
        · rw [if_neg hc, if_neg (fun h' => hc (hqc.1 h')), List.cons_append]

theorem nodup_keys_insertRate (ps : List (String × RateInfo)) (c : String) (i : RateInfo)
    (h : (ps.map Prod.fst).Nodup) : ((insertRate ps c i).map Prod.fst).Nodup := by
  rw [keys_insertRate]
  by_cases hc : c ∈ ps.map Prod.fst
  · simpa [hc] using h
  · simp only [hc, if_false]
    simpa [List.nodup_append, hc] using h

theorem nodup_keys_parseLoop (vs : List RawValute) (acc : List (String × RateInfo))
    (h : (acc.map Prod.fst).Nodup) : ((parseLoop acc vs).map Prod.fst).Nodup := by
  induction vs generalizing acc with
  | nil => simpa [parseLoop] using h
  | cons v vs ih =>
      simp only [parseLoop]
      rcases hpe : parseEntry v with _ | ci
      · exact h
      · exact ih (insertRate acc ci.1 ci.2) (nodup_keys_insertRate acc ci.1 ci.2 h)

theorem lookupRate_insertRate (ps : List (String × RateInfo)) (c : String) (i : RateInfo)
    (c' : String) :
    lookupRate (insertRate ps c i) c' =
      if c' = c then some i else lookupRate ps c' := by
  by_cases h : c' = c
  · subst h
    simp [lookupRate, find?_insertRate_self]
  · simp [lookupRate, find?_insertRate_other ps c i c' h, h]

theorem lookupRate_parseLoop (vs : List RawValute) (acc : List (String × RateInfo))
    (c : String) (h : ∀ v ∈ vs, parseEntry v ≠ none) :
    lookupRate (parseLoop acc vs) c =
      (((vs.filterMap parseEntry).reverse.find? (fun p => p.1 == c)).map Prod.snd).or
        (lookupRate acc c) := by
  induction vs generalizing acc with
  | nil => simp [parseLoop]
  | cons v vs ih =>
      rcases hpe : parseEntry v with _ | ci
      · exact absurd hpe (h v (List.mem_cons_self v vs))
      · simp only [parseLoop, hpe]
        rw [ih (insertRate acc ci.1 ci.2) (fun u hu => h u (List.mem_cons_of_mem v hu))]
        rw [List.filterMap_cons_some hpe, List.reverse_cons, List.find?_append]
        rw [lookupRate_insertRate]
        by_cases hc : ci.1 = c
        · rw [if_pos hc.symm]
          have hone : List.find? (fun p => p.1 == c) [ci] = some ci :=
            List.find?_cons_of_pos _ (by simp [hc])
          rw [hone]
          cases hF : List.find? (fun p => p.1 == c) (List.filterMap parseEntry vs).reverse with
          | none => simp
          | some w => simp
        · rw [if_neg (fun h' => hc h'.symm)]
          have hnone : List.find? (fun p => p.1 == c) [ci] = none := by
            rw [List.find?_cons_of_neg _ (by simp [hc])]
            rfl
          rw [hnone, Option.or_none]

theorem parseLoop_append_of_malformed (pfx : List RawValute) (v : RawValute)
    (rest : List RawValute) (acc : List (String × RateInfo))
    (hpfx : ∀ u ∈ pfx, parseEntry u ≠ none) (hv : parseEntry v = none) :
    parseLoop acc (pfx ++ v :: rest) = parseLoop acc pfx := by
  induction pfx generalizing acc with
  | nil => simp [parseLoop, hv]
  | cons u pfx ih =>
      rcases hpe : parseEntry u with _ | ci
      · exact absurd hpe (hpfx u (List.mem_cons_self u pfx))
      · simp only [List.cons_append, parseLoop, hpe]
        exact ih (insertRate acc ci.1 ci.2) (fun w hw => hpfx w (List.mem_cons_of_mem u hw))

/-! ### Facts about the per-day rows and the assembled table -/

theorem data_of_mem_rowsForDay (fetch : Nat → Option Doc) (now i : Nat) (r : Row)
    (hr : r ∈ rowsForDay fetch now i) : r.data = now - i * oneDay := by
  simp only [rowsForDay] at hr
  rcases hF : fetch ((now - i * oneDay) / oneDay) with _ | doc
  · rw [hF] at hr
    simp at hr
  · rw [hF] at hr
    by_cases he : (parse_xml doc).isEmpty = true
    · simp [he] at hr
    · simp only [he, Bool.false_eq_true, if_false, List.mem_map] at hr
      rcases hr with ⟨p, _, hp⟩
      rw [← hp]

theorem curs_of_mem_rowsForDay (fetch : Nat → Option Doc) (now i : Nat) (r : Row)
    (hr : r ∈ rowsForDay fetch now i) :
    ∃ doc p, fetch ((now - i * oneDay) / oneDay) = some doc ∧
      p ∈ parse_xml doc ∧ r.curs = p.2.value := by
  simp only [rowsForDay] at hr
  rcases hF : fetch ((now - i * oneDay) / oneDay) with _ | doc
  · rw [hF] at hr
    simp at hr
  · rw [hF] at hr
    by_cases he : (parse_xml doc).isEmpty = true
    · simp [he] at hr
    · simp only [he, Bool.false_eq_true, if_false, List.mem_map] at hr
      rcases hr with ⟨p, hp, hp'⟩
      exact ⟨doc, p, rfl, hp, by rw [← hp']⟩

theorem rowsForDay_of_fetch_none (fetch : Nat → Option Doc) (now i : Nat)
    (h : fetch ((now - i * oneDay) / oneDay) = none) :
    rowsForDay fetch now i = [] := by
  simp [rowsForDay, h]

theorem rowsForDay_of_parse_empty (fetch : Nat → Option Doc) (now i : Nat) (doc : Doc)
    (h : fetch ((now - i * oneDay) / oneDay) = some doc) (hp : parse_xml doc = []) :
    rowsForDay fetch now i = [] := by
  simp [rowsForDay, h, hp]

theorem mem_get_historical_data (days : Int) (fetch : Nat → Option Doc) (now : Nat)
    (r : Row) :
    r ∈ get_historical_data days fetch now ↔
      ∃ i, i < days.toNat ∧ r ∈ rowsForDay fetch now i := by
  unfold get_historical_data
  rw [mem_sortBy, List.mem_flatMap]
  constructor
  · rintro ⟨i, hi, hr⟩
    exact ⟨i, List.mem_range.1 hi, hr⟩
  · rintro ⟨i, hi, hr⟩
    exact ⟨i, List.mem_range.2 hi, hr⟩

theorem flatMap_congr_mem (l : List α) (f g : α → List β) (h : ∀ a ∈ l, f a = g a) :
    l.flatMap f = l.flatMap g := by
  induction l with
  | nil => rfl
  | cons a l ih =>
      simp only [List.flatMap_cons]
      rw [h a (List.mem_cons_self a l), ih (fun b hb => h b (List.mem_cons_of_mem a hb))]

theorem rowsForDay_shift (fetch : Nat → Option Doc) (q r1 r2 i : Nat)
    (hr1 : r1 < oneDay) (hr2 : r2 < oneDay) (hi : i ≤ q) :
    rowsForDay fetch (q * oneDay + r2) i =
      (rowsForDay fetch (q * oneDay + r1) i).map (shiftRow r1 r2) := by
  have hkey : (q * oneDay + r2 - i * oneDay) / oneDay
      = (q * oneDay + r1 - i * oneDay) / oneDay := by
    simp only [oneDay] at *
    omega
  simp only [rowsForDay, hkey]
  cases hF : fetch ((q * oneDay + r1 - i * oneDay) / oneDay) with
  | none => simp
  | some doc =>
      by_cases he : (parse_xml doc).isEmpty = true
      · simp [he]
      · simp only [he, Bool.false_eq_true, if_false, List.map_map]
        refine List.map_congr_left ?_
        intro p _
        simp only [Function.comp_def, shiftRow]
        congr 1
        simp only [oneDay] at *
        omega

theorem flatMap_rowsForDay_shift (fetch : Nat → Option Doc) (n q r1 r2 : Nat)
    (hr1 : r1 < oneDay) (hr2 : r2 < oneDay) (hn : n ≤ q + 1) :
    (List.range n).flatMap (rowsForDay fetch (q * oneDay + r2)) =
      ((List.range n).flatMap (rowsForDay fetch (q * oneDay + r1))).map
        (shiftRow r1 r2) := by
  rw [List.map_flatMap]
  refine flatMap_congr_mem _ _ _ ?_
  intro i hi
  exact rowsForDay_shift fetch q r1 r2 i hr1 hr2 (by
    have := List.mem_range.1 hi
    omega)

theorem data_mem_flatMap (fetch : Nat → Option Doc) (now n : Nat) (x : Row)
    (hx : x ∈ (List.range n).flatMap (rowsForDay fetch now)) :
    ∃ i, i < n ∧ x.data = now - i * oneDay := by
  rcases List.mem_flatMap.1 hx with ⟨i, hi, hxi⟩
  exact ⟨i, List.mem_range.1 hi, data_of_mem_rowsForDay fetch now i x hxi⟩

/-! ### Claim theorems -/

/-- C1: for every well-formed currency entry the stored rate equals
`value / nominal`; with `nominal = 1` the stored rate equals the raw value
exactly; and the C1 scenario document (EUR 19.50 nominal 1, USD 1950.0
nominal 100) parses to stored rates {EUR: 19.50, USD: 19.50}. -/
theorem stored_rate_is_value_div_nominal (c n : String) (val : ℚ) (nom : Int)
    (hnom : nom ≠ 0) :
    parseEntry { charCode := some c, name := some n, value := some val, nominal := some nom }
      = some (c, { name := n, value := val / (nom : ℚ), nominal := nom }) ∧
    (nom = 1 →
      parseEntry { charCode := some c, name := some n, value := some val, nominal := some nom }
        = some (c, { name := n, value := val, nominal := 1 })) ∧
    (parse_xml (some [euroValute, usdValute])).map (fun p => (p.1, p.2.value))
      = [("EUR", (39/2 : ℚ)), ("USD", (39/2 : ℚ))] := by
  refine ⟨?_, ?_, ?_⟩
  · simp [parseEntry, hnom]
  · intro h1
    subst h1
    norm_num [parseEntry]
  · have hne : ¬ ("EUR" : String) = "USD" := by decide
    norm_num [parse_xml, parseLoop, parseEntry, insertRate, euroValute, usdValute, hne]

/-- Witness for C1 at EUR, 19.50, nominal 1 (`euroValute` is that record). -/
theorem stored_rate_is_value_div_nominal_witness :
    (1 : Int) ≠ 0 ∧
    (parseEntry euroValute
      = some ("EUR", { name := "Euro", value := (39/2 : ℚ) / ((1 : Int) : ℚ), nominal := 1 }) ∧
    ((1 : Int) = 1 →
      parseEntry euroValute
        = some ("EUR", { name := "Euro", value := (39/2 : ℚ), nominal := 1 })) ∧
    (parse_xml (some [euroValute, usdValute])).map (fun p => (p.1, p.2.value))
      = [("EUR", (39/2 : ℚ)), ("USD", (39/2 : ℚ))]) :=
  ⟨by decide, stored_rate_is_value_div_nominal "EUR" "Euro" (39/2 : ℚ) 1 (by decide)⟩

/-- C7 counterexample: a malformed document — its second entry has no
`<Value>` child — for which the parser returns a non-empty, partially
filled mapping rather than the empty mapping. -/
theorem parse_nonempty_on_malformed :
    parseEntry badValute = none ∧
    parse_xml (some [euroValute, badValute]) ≠ [] := by
  constructor
  · rfl
  · decide

/-- C7 amended: the parser is total (never raises); it returns the empty
mapping when the document is unparseable or when its FIRST entry is
malformed; a structural failure at a later entry returns the (possibly
non-empty) entries accumulated before it. -/
theorem parse_tolerant_amended :
    parse_xml none = [] ∧
    (∀ v vs, parseEntry v = none → parse_xml (some (v :: vs)) = []) ∧
    (∀ pfx v rest, (∀ u ∈ pfx, parseEntry u ≠ none) → parseEntry v = none →
      parse_xml (some (pfx ++ v :: rest)) = parse_xml (some pfx)) := by
  refine ⟨rfl, ?_, ?_⟩
  · intro v vs hv
    simp [parse_xml, parseLoop, hv]
  · intro pfx v rest hpfx hv
    simp only [parse_xml]
    exact parseLoop_append_of_malformed pfx v rest [] hpfx hv

/-- Witness for C7 amended at the document [badValute]. -/
theorem parse_tolerant_amended_witness :
    parseEntry badValute = none ∧ parse_xml (some (badValute :: [])) = [] :=
  ⟨by decide, parse_tolerant_amended.2.1 badValute [] (by decide)⟩

/-- C9: within a single day's parsed result the currency codes are unique,
and for a document whose entries all parse, the value looked up for a code
is the one of the LAST entry with that code in document order. -/
theorem parsed_codes_unique_last_wins (vs : List RawValute) :
    ((parse_xml (some vs)).map Prod.fst).Nodup ∧
    ((∀ v ∈ vs, parseEntry v ≠ none) → ∀ c,
      lookupRate (parse_xml (some vs)) c =
        ((vs.filterMap parseEntry).reverse.find? (fun p => p.1 == c)).map Prod.snd) := by
  constructor
  · exact nodup_keys_parseLoop vs [] (by simp)
  · intro h c
    simp only [parse_xml]
    rw [lookupRate_parseLoop vs [] c h]
    simp [lookupRate]

/-- Witness for C9 on a duplicate-EUR document: codes stay unique and the
last EUR entry's (normalized) value wins. -/
theorem parsed_codes_unique_last_wins_witness :
    ((parse_xml (some [euroValute, eurAltValute])).map Prod.fst).Nodup ∧
    lookupRate (parse_xml (some [euroValute, eurAltValute])) "EUR"
      = some { name := "Euro", value := (20 : ℚ), nominal := 1 } := by
  constructor
  · exact (parsed_codes_unique_last_wins [euroValute, eurAltValute]).1
  · rw [(parsed_codes_unique_last_wins [euroValute, eurAltValute]).2 (by decide) "EUR"]
    norm_num [parseEntry, euroValute, eurAltValute, List.find?]

/-- C10: in a well-formed document whose entry `v` is the first malformed
one (missing child, unparseable number, or zero nominal), `parse_xml`
returns exactly the parse of the entries preceding `v`, dropping `v` and
everything after it, and (being a total function) does not raise. -/
theorem parse_keeps_entries_before_malformed (pfx : List RawValute) (v : RawValute)
    (rest : List RawValute) (hpfx : ∀ u ∈ pfx, parseEntry u ≠ none)
    (hv : parseEntry v = none) :
    parse_xml (some (pfx ++ v :: rest)) = parse_xml (some pfx) := by
  simp only [parse_xml]
  exact parseLoop_append_of_malformed pfx v rest [] hpfx hv

/-- Witness for C10: EUR then a malformed entry then USD parses like the
one-entry EUR document. -/
theorem parse_keeps_entries_before_malformed_witness :
    (∀ u ∈ [euroValute], parseEntry u ≠ none) ∧ parseEntry badValute = none ∧
    parse_xml (some ([euroValute] ++ badValute :: [usdValute])) = parse_xml (some [euroValute]) :=
  ⟨by decide, by decide,
    parse_keeps_entries_before_malformed [euroValute] badValute [usdValute]
      (by decide) (by decide)⟩

theorem rowLe_total (a b : Row) (h : rowLe a b = false) : rowLe b a = true := by
  simp only [rowLe, decide_eq_false_iff_not, decide_eq_true_eq] at *
  omega

theorem rowLe_trans (a b c : Row) (hab : rowLe a b = true) (hbc : rowLe b c = true) :
    rowLe a c = true := by
  simp only [rowLe, decide_eq_true_eq] at *
  omega

/-- C2: for positive `days`, the assembled table is sorted ascending by
date; every row's date is one of the `days` trailing dates `now - i` days
(`i < days`); the table is exactly the sorted concatenation of every day's
independent row list (so one day's failure never stops the loop); and a day
whose fetch yields no document, or whose document parses to an empty
mapping, contributes zero rows. -/
theorem assemble_window_sorted (days : Int) (fetch : Nat → Option Doc) (now : Nat)
    (_hdays : 0 < days) :
    (get_historical_data days fetch now).Pairwise (fun a b => a.data ≤ b.data) ∧
    (∀ r ∈ get_historical_data days fetch now,
      ∃ i, i < days.toNat ∧ r.data = now - i * oneDay) ∧
    get_historical_data days fetch now
      = sortBy rowLe ((List.range days.toNat).flatMap (rowsForDay fetch now)) ∧
    (∀ i, fetch ((now - i * oneDay) / oneDay) = none → rowsForDay fetch now i = []) ∧
    (∀ i doc, fetch ((now - i * oneDay) / oneDay) = some doc → parse_xml doc = [] →
      rowsForDay fetch now i = []) := by
  refine ⟨?_, ?_, rfl, ?_, ?_⟩
  · have hp := sortBy_pairwise rowLe rowLe_total rowLe_trans
      ((List.range days.toNat).flatMap (rowsForDay fetch now))
    refine hp.imp ?_
    intro a b h
    simpa [rowLe] using h
  · intro r hr
    rcases (mem_get_historical_data days fetch now r).1 hr with ⟨i, hi, hri⟩
    exact ⟨i, hi, data_of_mem_rowsForDay fetch now i r hri⟩
  · intro i h
    exact rowsForDay_of_fetch_none fetch now i h
  · intro i doc h hp
    exact rowsForDay_of_parse_empty fetch now i doc h hp

/-- Witness for C2 at days = 1, the constant EUR source, now = 0. -/
theorem assemble_window_sorted_witness :
    (0 : Int) < 1 ∧
    ((get_historical_data 1 constFetch 0).Pairwise (fun a b => a.data ≤ b.data) ∧
    (∀ r ∈ get_historical_data 1 constFetch 0,
      ∃ i, i < (1 : Int).toNat ∧ r.data = 0 - i * oneDay) ∧
    get_historical_data 1 constFetch 0
      = sortBy rowLe ((List.range (1 : Int).toNat).flatMap (rowsForDay constFetch 0)) ∧
    (∀ i, constFetch ((0 - i * oneDay) / oneDay) = none → rowsForDay constFetch 0 i = []) ∧
    (∀ i doc, constFetch ((0 - i * oneDay) / oneDay) = some doc → parse_xml doc = [] →
      rowsForDay constFetch 0 i = [])) :=
  ⟨by decide, assemble_window_sorted 1 constFetch 0 (by decide)⟩

/-- C3 counterexample: called with days = 0 or days = -5 the assembler
returns the empty table as an ordinary, non-error value (no precondition
check exists), although the very same data source yields rows for
days = 1. -/
theorem assemble_nonpositive_returns_empty :
    get_historical_data 0 constFetch 1000000 = [] ∧
    get_historical_data (-5) constFetch 1000000 = [] ∧
    get_historical_data 1 constFetch 1000000 ≠ [] := by
  refine ⟨rfl, rfl, ?_⟩
  decide

/-- C3 amended: for non-positive `days` the loop body never runs — the
result does not depend on the fetcher or on the current time (no network
call is consulted) — and the empty table is returned as a normal value;
no precondition error is raised. -/
theorem assemble_nonpositive_amended (days : Int) (h : days ≤ 0)
    (fetch fetch2 : Nat → Option Doc) (now now2 : Nat) :
    get_historical_data days fetch now = [] ∧
    get_historical_data days fetch now = get_historical_data days fetch2 now2 := by
  have h0 : days.toNat = 0 := Int.toNat_of_nonpos h
  constructor <;> simp [get_historical_data, h0, sortBy]

/-- Witness for C3 amended at days = 0 with two distinct sources/instants. -/
theorem assemble_nonpositive_amended_witness :
    (0 : Int) ≤ 0 ∧
    (get_historical_data 0 constFetch 5 = [] ∧
    get_historical_data 0 constFetch 5 = get_historical_data 0 (fun _ => none) 7) :=
  ⟨by decide, assemble_nonpositive_amended 0 (by decide) constFetch (fun _ => none) 5 7⟩

theorem dayView_assemble_shift (fetch : Nat → Option Doc) (n q r1 r2 : Nat)
    (hr1 : r1 < oneDay) (hr2 : r2 < oneDay) (hn : n ≤ q + 1) :
    dayView (sortBy rowLe ((List.range n).flatMap (rowsForDay fetch (q * oneDay + r2)))) =
      dayView (sortBy rowLe ((List.range n).flatMap (rowsForDay fetch (q * oneDay + r1)))) := by
  rw [flatMap_rowsForDay_shift fetch n q r1 r2 hr1 hr2 hn]
  have hdata : ∀ x ∈ (List.range n).flatMap (rowsForDay fetch (q * oneDay + r1)),
      ∃ i, i < n ∧ x.data = q * oneDay + r1 - i * oneDay :=
    fun x hx => data_mem_flatMap fetch (q * oneDay + r1) n x hx
  have hcmp : ∀ x ∈ (List.range n).flatMap (rowsForDay fetch (q * oneDay + r1)),
      ∀ y ∈ (List.range n).flatMap (rowsForDay fetch (q * oneDay + r1)),
      rowLe (shiftRow r1 r2 x) (shiftRow r1 r2 y) = rowLe x y := by
    intro x hx y hy
    rcases hdata x hx with ⟨i, hi, hxi⟩
    rcases hdata y hy with ⟨j, hj, hyj⟩
    simp only [rowLe, shiftRow]
    rw [decide_eq_decide]
    simp only [oneDay] at hxi hyj hr1 hr2 hn
    omega
  rw [sortBy_map rowLe (shiftRow r1 r2) _ hcmp]
  simp only [dayView, List.map_map]
  refine List.map_congr_left ?_
  intro r hr
  rcases hdata r ((mem_sortBy rowLe _ r).1 hr) with ⟨i, hi, hri⟩
  have hq : (r.data - r1 + r2) / oneDay = r.data / oneDay := by
    simp only [oneDay] at hri hr1 hr2 hn ⊢
    omega
  simp [Function.comp_def, shiftRow, hq]

/-- C5 counterexample: with a constant data source, two calls within the
same calendar day but one hour apart (now = 0 s and now = 3600 s) return
different tables — the stored dates carry the call's time-of-day. -/
theorem assemble_same_day_differs :
    (0 : Nat) / oneDay = (3600 : Nat) / oneDay ∧
    (get_historical_data 1 constFetch 0).map (fun r => r.data) = [0] ∧
    (get_historical_data 1 constFetch 3600).map (fun r => r.data) = [3600] ∧
    get_historical_data 1 constFetch 0 ≠ get_historical_data 1 constFetch 3600 := by
  refine ⟨by decide, by decide, by decide, ?_⟩
  intro h
  have h2 := congrArg (List.map (fun r => r.data)) h
  rw [show (get_historical_data 1 constFetch 0).map (fun r => r.data) = [0] by decide,
    show (get_historical_data 1 constFetch 3600).map (fun r => r.data) = [3600] by decide] at h2
  simp at h2

/-- C5 amended: the assembler is a pure function of (days, data source,
call instant): two calls at the same instant agree, and two calls within
the same calendar day agree on everything except the time-of-day carried
inside the stored dates — their tables are identical once each date is
reduced to its calendar-day number. -/
theorem assemble_same_day_dayView (days : Int) (fetch : Nat → Option Doc) (t1 t2 : Nat)
    (hday : t1 / oneDay = t2 / oneDay) (hroom : days.toNat ≤ t1 / oneDay + 1) :
    dayView (get_historical_data days fetch t1) =
      dayView (get_historical_data days fetch t2) := by
  have h1 : t1 = t1 / oneDay * oneDay + t1 % oneDay := by
    rw [mul_comm]
    exact (Nat.div_add_mod t1 oneDay).symm
  have h2 : t2 = t1 / oneDay * oneDay + t2 % oneDay := by
    rw [hday, mul_comm]
    exact (Nat.div_add_mod t2 oneDay).symm
  have hm1 : t1 % oneDay < oneDay := Nat.mod_lt _ (by norm_num [oneDay])
  have hm2 : t2 % oneDay < oneDay := Nat.mod_lt _ (by norm_num [oneDay])
  unfold get_historical_data
  conv_lhs => rw [h1]
  conv_rhs => rw [h2]
  exact dayView_assemble_shift fetch days.toNat (t1 / oneDay) (t2 % oneDay) (t1 % oneDay)
    hm2 hm1 hroom

/-- Witness for C5 amended: calls at second 0 and second 3600 of the same
day agree up to the time-of-day inside the dates. -/
theorem assemble_same_day_dayView_witness :
    (0 : Nat) / oneDay = (3600 : Nat) / oneDay ∧
    (1 : Int).toNat ≤ (0 : Nat) / oneDay + 1 ∧
    dayView (get_historical_data 1 constFetch 0) =
      dayView (get_historical_data 1 constFetch 3600) :=
  ⟨by decide, by decide, assemble_same_day_dayView 1 constFetch 0 3600 (by decide) (by decide)⟩

/-- C6 counterexample: an assembly performed at noon (now = 43200 s) stores
the date value 43200, which is not midnight — the stored dates keep the
time-of-day of `datetime.now()`. -/
theorem stored_date_not_midnight :
    (get_historical_data 1 constFetch 43200).map (fun r => r.data) = [43200] ∧
    ¬ (43200 : Nat) % oneDay = 0 := by
  exact ⟨by decide, by decide⟩

/-- C6 amended: every stored date equals `now - i` days and so carries the
call instant's time-of-day (`data % oneDay = now % oneDay`); consequently,
within one assembly call, any two rows of the same calendar day carry equal
date values. -/
theorem stored_date_time_component (days : Int) (fetch : Nat → Option Doc) (now : Nat)
    (hroom : days.toNat ≤ now / oneDay + 1) :
    (∀ r ∈ get_historical_data days fetch now, r.data % oneDay = now % oneDay) ∧
    (∀ r ∈ get_historical_data days fetch now, ∀ s ∈ get_historical_data days fetch now,
      r.data / oneDay = s.data / oneDay → r.data = s.data) := by
  have hmem : ∀ r ∈ get_historical_data days fetch now,
      ∃ i, i < days.toNat ∧ r.data = now - i * oneDay := by
    intro r hr
    rcases (mem_get_historical_data days fetch now r).1 hr with ⟨i, hi, hri⟩
    exact ⟨i, hi, data_of_mem_rowsForDay fetch now i r hri⟩
  constructor
  · intro r hr
    rcases hmem r hr with ⟨i, hi, hri⟩
    simp only [oneDay] at hroom hri ⊢
    omega
  · intro r hr s hs hq
    rcases hmem r hr with ⟨i, hi, hri⟩
    rcases hmem s hs with ⟨j, hj, hsj⟩
    simp only [oneDay] at hroom hri hsj hq ⊢
    omega

/-- Witness for C6 amended at a noon call. -/
theorem stored_date_time_component_witness :
    (1 : Int).toNat ≤ (43200 : Nat) / oneDay + 1 ∧
    ((∀ r ∈ get_historical_data 1 constFetch 43200, r.data % oneDay = 43200 % oneDay) ∧
    (∀ r ∈ get_historical_data 1 constFetch 43200,
      ∀ s ∈ get_historical_data 1 constFetch 43200,
      r.data / oneDay = s.data / oneDay → r.data = s.data)) :=
  ⟨by decide, stored_date_time_component 1 constFetch 43200 (by decide)⟩

theorem parseEntry_value_pos (v : RawValute)
    (hval : ∀ q, v.value = some q → 0 < q) (hnom : ∀ n, v.nominal = some n → 0 < n)
    (c : String) (info : RateInfo) (h : parseEntry v = some (c, info)) :
    0 < info.value := by
  rcases v with ⟨oc, onm, ov, onom⟩
  rcases oc with _ | cc <;> rcases onm with _ | nm <;> rcases ov with _ | val <;>
    rcases onom with _ | nom <;> simp only [parseEntry] at h <;>
    try exact Option.noConfusion h
  by_cases h0 : nom = 0
  · rw [if_pos h0] at h
    exact Option.noConfusion h
  · rw [if_neg h0] at h
    have h3 : info = { name := nm, value := val / (nom : ℚ), nominal := nom } := by
      injection h with h2
      exact (congrArg Prod.snd h2).symm
    rw [h3]
    have hv0 : 0 < val := hval val rfl
    have hn0 : (0 : ℚ) < (nom : ℚ) := by
      exact_mod_cast hnom nom rfl
    exact div_pos hv0 hn0

theorem parse_values_pos (vs : List RawValute) (hvs : EntriesPos vs) :
    ∀ p ∈ parse_xml (some vs), 0 < p.2.value := by
  intro p hp
  have hp' : p ∈ parseLoop [] vs := by simpa [parse_xml] using hp
  rcases mem_parseLoop vs [] p hp' with h | ⟨v, hv, hpe⟩
  · simp at h
  · rcases hvs v hv with ⟨hval, hnom⟩
    exact parseEntry_value_pos v hval hnom p.1 p.2 hpe

theorem entriesPos_euro : EntriesPos [euroValute] := by
  intro v hv
  rw [List.mem_singleton] at hv
  subst hv
  refine ⟨?_, ?_⟩
  · intro q hq
    simp only [euroValute, Option.some.injEq] at hq
    rw [← hq]
    norm_num
  · intro n hn
    simp only [euroValute, Option.some.injEq] at hn
    rw [← hn]
    norm_num

/-- C8 counterexample: a well-formed document quoting a zero value — the
parser stores the rate 0 for a present entry, so parsed rates are not
always strictly positive. -/
theorem zero_rate_stored :
    ¬ (∀ p ∈ parse_xml (some [zeroValute]), 0 < p.2.value) := by
  intro h
  have hxl : parse_xml (some [zeroValute]) =
      [("ZRO", { name := "Zero", value := 0, nominal := 1 })] := by
    norm_num [parse_xml, parseLoop, parseEntry, insertRate, zeroValute]
  rw [hxl] at h
  have h0 := h ("ZRO", { name := "Zero", value := 0, nominal := 1 })
    (List.mem_singleton.2 rfl)
  norm_num at h0

/-- C8 amended: when every document entry carries strictly positive value
and nominal (as BNM quotes do), every parsed rate and every assembled row's
rate is strictly positive; absent (date, code) pairs are simply absent — no
code path stores a default or zero rate. -/
theorem rates_strictly_positive_amended (days : Int) (fetch : Nat → Option Doc)
    (now : Nat) (vs : List RawValute) (hvs : EntriesPos vs)
    (hfetch : ∀ d ws, fetch d = some (some ws) → EntriesPos ws) :
    (∀ p ∈ parse_xml (some vs), 0 < p.2.value) ∧
    (∀ r ∈ get_historical_data days fetch now, 0 < r.curs) := by
  constructor
  · exact parse_values_pos vs hvs
  · intro r hr
    rcases (mem_get_historical_data days fetch now r).1 hr with ⟨i, hi, hri⟩
    rcases curs_of_mem_rowsForDay fetch now i r hri with ⟨doc, p, hF, hp, hcurs⟩
    rcases doc with _ | ws
    · simp [parse_xml] at hp
    · rw [hcurs]
      exact parse_values_pos ws (hfetch _ ws hF) p hp

/-- Witness for C8 amended on the positive EUR source. -/
theorem rates_strictly_positive_amended_witness :
    (∀ p ∈ parse_xml (some [euroValute]), 0 < p.2.value) ∧
    (∀ r ∈ get_historical_data 1 constFetch 0, 0 < r.curs) :=
  rates_strictly_positive_amended 1 constFetch 0 [euroValute] entriesPos_euro
    (fun d ws hw => by
      have hws : ws = [euroValute] := by
        simpa [constFetch] using hw.symm
      rw [hws]
      exact entriesPos_euro)

/-- C4 (code bug): pivoting a 2-day, 1-currency table that crosses a month
boundary (assembled at 2024-04-01 00:00 with a 2-day window, so dates
2024-03-31 and 2024-04-01): the header is `Data` plus one column per
currency code and there is one row per date formatted dd.mm.yyyy, but the
rows are sorted by the formatted STRING descending, so "31.03.2024" comes
before "01.04.2024" although 01.04.2024 is the chronologically later
date — the pivoted table (and hence its CSV export) is not descending by
date. -/
theorem pivot_rows_sorted_by_string_not_date :
    (pivot_df (get_historical_data 2 constFetch 1711929600)).header = ["Data", "EUR"] ∧
    ((pivot_df (get_historical_data 2 constFetch 1711929600)).prows.map Prod.fst)
      = ["31.03.2024", "01.04.2024"] ∧
    fmtDate 1711929600 = "01.04.2024" ∧
    fmtDate (1711929600 - oneDay) = "31.03.2024" ∧
    1711929600 - oneDay < 1711929600 := by
  refine ⟨?_, ?_, ?_, ?_, ?_⟩ <;> decide

end ExcelApp
